import Mathlib

/-!
Verification model for the RELION motion-parameter estimator and B-factor
refiner (`src/jaz/motion/motion_param_estimator.cpp`, which also contains
`bfactor_refiner.cpp`).

The C++ `double` arithmetic is embedded as exact real arithmetic over `ℝ`.
External collaborators (the libc PRNG behind `srand`/`rand`, the trajectory
solver `MotionEstimator::optimize`, `AlignmentSet::updateTsc`,
`ObservationModel::angToPix`) are modelled as abstract function parameters;
code of the repository that is not part of the provided core source
(`IndexSort::sortIndices`, the two `HyperParameterProblem` scale maps) is
modelled from the spec where noted.
-/

/-- A metadata table of one micrograph; only its particle count
(`numberOfObjects()`) is relevant to micrograph selection. -/
structure Mdt where
  numberOfObjects : ℕ
deriving DecidableEq, Repr

instance : Inhabited Mdt := ⟨⟨0⟩⟩

/-- Abstract model of the process-global C PRNG used by
`MotionParamEstimator::init`: `srand` builds a generator state from a seed
(discarding whatever state was active before), `next` models one `rand()`
call returning the value `rand() / (double) RAND_MAX` together with the
successor state. -/
structure CRng (σ : Type) where
  srand : ℕ → σ
  next : σ → σ × ℝ

/-- The sequence `randNums[0..n)` produced by `n` successive `rand()` calls
starting from state `st` (source lines 132-137). -/
def genRandNums {σ : Type} (next : σ → σ × ℝ) : ℕ → σ → List ℝ
  | 0, _ => []
  | n + 1, st => (next st).2 :: genRandNums next n (next st).1

/-- Modelled from the spec: `IndexSort<double>::sortIndices` (from
`src/jaz/index_sort.h`, which is not part of the provided core source)
returns the indices of its argument ordered by ascending value; the spec
describes the result as a seeded shuffle of the micrograph list. -/
noncomputable def sortIndices (xs : List ℝ) : List ℕ :=
  List.insertionSort (fun i j => xs.getD i 0 ≤ xs.getD j 0) (List.range xs.length)

/-- The greedy micrograph-selection loop of `MotionParamEstimator::init`
(source lines 149-179): walk the shuffled order, skip micrographs with
fewer than 2 particles, accumulate the rest until `minParticles` particles
have been collected (the micrograph that reaches the floor is kept, then
the loop breaks). -/
def selectMdts (allMdts : List Mdt) (minParticles : ℕ) : List ℕ → ℕ → List Mdt
  | [], _ => []
  | m :: rest, pc =>
    let md := allMdts.getD m ⟨0⟩
    let pcm := md.numberOfObjects
    if pcm < 2 then selectMdts allMdts minParticles rest pc
    else if minParticles ≤ pc + pcm then [md]
    else md :: selectMdts allMdts minParticles rest (pc + pcm)

/-- The sampling step of `MotionParamEstimator::init` (source lines
128-179): `srand(seed)` replaces the ambient PRNG state `ambient`, `mc`
random numbers are drawn, their sort order is the shuffle, and micrographs
are selected greedily.  `ambient` is a parameter precisely because the
code overwrites it with `srand(seed)` before drawing. -/
noncomputable def initSelect {σ : Type} (R : CRng σ) (ambient : σ) (seed : ℕ)
    (allMdts : List Mdt) (minParticles : ℕ) : List Mdt :=
  let st0 := R.srand seed
  let randNums := genRandNums R.next allMdts.length st0
  selectMdts allMdts minParticles (sortIndices randNums) 0

/-- Command-line configuration of `MotionParamEstimator` (read at source
lines 22-44). -/
structure MpeConfig where
  paramsRead : Bool
  estim2 : Bool
  estim3 : Bool
  k_cutoff : ℝ
  k_cutoff_Angst : ℝ
  k_eval : ℝ
  k_eval_Angst : ℝ
  minParticles : ℕ
  seed : ℕ

/-- The fatal error raised when the alignment cutoff frequency is given
both in pixels and in Angstrom (source lines 73-76). -/
def cutoffBothError : String :=
  "ERROR: Cutoff frequency can only be provided in pixels or Angstrom, not both."

/-- Validation and sampling sequence of `MotionParamEstimator::init`
(source lines 46-190), with `REPORT_ERROR` modelled as `Except.error`.
The checks appear in source order; micrograph sampling (`initSelect`)
happens only in the final, all-checks-passed branch, so an error result
means no sampling was performed. -/
noncomputable def mpeInit {σ : Type} (R : CRng σ) (ambient : σ) (motionReady : Bool)
    (angToPix : ℝ → ℝ) (cfg : MpeConfig) (allMdts : List Mdt) :
    Except String (List Mdt) :=
  if !cfg.paramsRead then
    .error "ERROR: MotionParamEstimator has not read its cmd-line parameters."
  else if !motionReady then
    .error "ERROR: MotionParamEstimator initialized before MotionEstimator."
  else if 0 < cfg.k_cutoff_Angst ∧ 0 < cfg.k_cutoff then
    .error cutoffBothError
  else if 0 < cfg.k_eval_Angst ∧ 0 < cfg.k_eval then
    .error "ERROR: Evaluation frequency can only be provided in pixels or Angstrom, not both."
  else
    let k_cutoff :=
      if 0 < cfg.k_cutoff_Angst ∧ cfg.k_cutoff < 0 then angToPix cfg.k_cutoff_Angst
      else cfg.k_cutoff
    if (cfg.estim2 || cfg.estim3) ∧ k_cutoff < 0 then
      .error "ERROR: Parameter estimation requires a freq. cutoff (--k_cut or --k_cut_A)."
    else if cfg.estim2 && cfg.estim3 then
      .error "ERROR: Only 2 or 3 parameters can be estimated (--params2 or --params3), not both."
    else
      .ok (initSelect R ambient cfg.seed allMdts cfg.minParticles)

/-- Per-dimension scale constant for the velocity sigma (source line 13). -/
def velScale : ℝ := 1000.0

/-- Per-dimension scale constant for the divergence sigma (source line 14). -/
def divScale : ℝ := 1.0

/-- Per-dimension scale constant for the acceleration sigma (source line 15). -/
def accScale : ℝ := 10000.0

/-- Modelled from the spec: `TwoHyperParameterProblem::motionToProblem`
(from `two_hyperparameter_fit.cpp`, which is not part of the provided core
source) rescales a physical (sigma_vel, sigma_div) vector into
optimizer-native units by the fixed per-dimension scale constants. -/
def motionToProblem2 (v : ℝ × ℝ) : ℝ × ℝ :=
  (v.1 * velScale, v.2 * divScale)

/-- Modelled from the spec: `TwoHyperParameterProblem::problemToMotion`
maps optimizer-native units back to physical sigmas by dividing by the
same scale constants. -/
noncomputable def problemToMotion2 (x : ℝ × ℝ) : ℝ × ℝ :=
  (x.1 / velScale, x.2 / divScale)

/-- Modelled from the spec: `ThreeHyperParameterProblem::motionToProblem`
rescales (sigma_vel, sigma_div, sigma_acc) by (velScale, divScale,
accScale). -/
def motionToProblem3 (v : ℝ × ℝ × ℝ) : ℝ × ℝ × ℝ :=
  (v.1 * velScale, v.2.1 * divScale, v.2.2 * accScale)

/-- Modelled from the spec: `ThreeHyperParameterProblem::problemToMotion`
divides by the same three scale constants. -/
noncomputable def problemToMotion3 (x : ℝ × ℝ × ℝ) : ℝ × ℝ × ℝ :=
  (x.1 / velScale, x.2.1 / divScale, x.2.2 / accScale)

/-- C-style `(int)` cast of a real number: truncation toward zero. -/
noncomputable def truncToInt (y : ℝ) : ℤ :=
  if 0 ≤ y then ⌊y⌋ else ⌈y⌉

/-- One component of the result rounding in `MotionParamEstimator::run`
(source lines 238-241): `conv * 0.5 * ((int)(2.0 * nrm / conv + 0.5)) / scale`. -/
noncomputable def roundReport (nrm conv scale : ℝ) : ℝ :=
  conv * 0.5 * ((truncToInt (2.0 * nrm / conv + 0.5) : ℤ) : ℝ) / scale

/-- The reported (s_vel, s_div, s_acc) triple of `MotionParamEstimator::run`
(source lines 232-256): scale the optimum by the per-dimension constants,
round each component to `conv / 2`, then apply the two overrides for the
acceleration component, in source order: `estim2` restores the fixed
`sA`, and a non-positive optimal acceleration is reported as `-1`. -/
noncomputable def reportedSigmas (estim2 : Bool) (opt : ℝ × ℝ × ℝ) (sA conv : ℝ) :
    ℝ × ℝ × ℝ :=
  let rnd0 := roundReport (opt.1 * velScale) conv velScale
  let rnd1 := roundReport (opt.2.1 * divScale) conv divScale
  let rnd2 := roundReport (opt.2.2 * accScale) conv accScale
  let rnd2a := if estim2 then sA else rnd2
  let rnd2b := if opt.2.2 ≤ 0 then -1 else rnd2a
  (rnd0, rnd1, rnd2b)

/-- The reported sigmas on the `estim2` path: `estimateTwoParamsNM` returns
`opt = (vd[0], vd[1], sig_acc, -minTsc)` (source line 286), so the third
optimum component is exactly the supplied fixed acceleration sigma `sA`. -/
noncomputable def runEstim2Sigmas (vd : ℝ × ℝ) (sA conv : ℝ) : ℝ × ℝ × ℝ :=
  reportedSigmas true (vd.1, vd.2, sA) sA conv

/-- The accumulated three-component score vector `tscsAs[i]` of
`MotionParamEstimator::evaluateParams` (source lines 328-372): a sum of
per-micrograph contributions (`alignmentSet.updateTsc` applied to the
trajectories re-fitted for candidate `i`, abstracted as `contrib g i`)
over the micrographs with at least 2 particles. -/
def accumTsc (contrib : ℕ → ℕ → ℝ × ℝ × ℝ) (pcs : List ℕ) (i : ℕ) : ℝ × ℝ × ℝ :=
  ((List.range pcs.length).filter (fun g => ¬ pcs.getD g 0 < 2)).foldl
    (fun acc g =>
      (acc.1 + (contrib g i).1, acc.2.1 + (contrib g i).2.1, acc.2.2 + (contrib g i).2.2))
    (0, 0, 0)

/-- `std::vector<double>::resize(n)` applied to `xs`: the first
`min n xs.length` entries are kept, new entries are value-initialized
to `0.0`. -/
def resizeList (xs : List ℝ) (n : ℕ) : List ℝ :=
  (List.range n).map (fun i => xs.getD i 0)

/-- The final TSC computation of `MotionParamEstimator::evaluateParams`
(source lines 314-315 and 379-393): the in/out vector `TSCs` is resized to
`paramCount`, and entry `i` is overwritten with
`tscsAs[i][0] / sqrt(tscsAs[i][1] * tscsAs[i][2])` only when the weight
product is positive; otherwise the entry keeps its post-resize value. -/
noncomputable def finalTSCs (old : List ℝ) (tscsAs : List (ℝ × ℝ × ℝ)) : List ℝ :=
  (List.range tscsAs.length).map (fun i =>
    let t := tscsAs.getD i (0, 0, 0)
    if 0 < t.2.1 * t.2.2 then t.1 / Real.sqrt (t.2.1 * t.2.2)
    else (resizeList old tscsAs.length).getD i 0)

/-- `MotionParamEstimator::evaluateParams` (source lines 310-393), with the
previous contents of the in/out vector `TSCs` passed as `old` and the
external per-micrograph score contributions abstracted as `contrib`. -/
noncomputable def evaluateParams (old : List ℝ) (pcs : List ℕ)
    (contrib : ℕ → ℕ → ℝ × ℝ × ℝ) (paramCount : ℕ) : List ℝ :=
  finalTSCs old ((List.range paramCount).map (fun i => accumTsc contrib pcs i))

theorem selectMdts_two_le (allMdts : List Mdt) (minParticles : ℕ) :
    ∀ (order : List ℕ) (pc : ℕ) (md : Mdt),
      md ∈ selectMdts allMdts minParticles order pc → 2 ≤ md.numberOfObjects := by
  intro order
  induction order with
  | nil => intro pc md h; simp [selectMdts] at h
  | cons m rest ih =>
    intro pc md h
    simp only [selectMdts] at h
    by_cases h2 : (allMdts.getD m ⟨0⟩).numberOfObjects < 2
    · rw [if_pos h2] at h
      exact ih pc md h
    · rw [if_neg h2] at h
      by_cases h3 : minParticles ≤ pc + (allMdts.getD m ⟨0⟩).numberOfObjects
      · rw [if_pos h3] at h
        rw [List.mem_singleton.mp h]
        omega
      · rw [if_neg h3] at h
        rcases List.mem_cons.mp h with h4 | h4
        · subst h4; omega
        · exact ih _ md h4

lemma getD_map_range {α : Type} (f : ℕ → α) (n i : ℕ) (d : α) (h : i < n) :
    ((List.range n).map f).getD i d = f i := by
  rw [List.getD_eq_getElem?_getD, List.getElem?_map, List.getElem?_range h]
  rfl

lemma resizeList_nil_getD (n i : ℕ) : (resizeList [] n).getD i 0 = 0 := by
  unfold resizeList
  rcases lt_or_le i n with h | h
  · rw [getD_map_range _ _ _ _ h]
    simp
  · rw [List.getD_eq_getElem?_getD, List.getElem?_eq_none]
    · rfl
    · simpa using h

/-- C5: micrograph sampling is a deterministic function of the seed and the
input micrograph list.  `initSelect` reseeds the PRNG with `srand(seed)`
before drawing, so two runs that start from arbitrary (and possibly
different) ambient PRNG states produce the identical ordered selection. -/
theorem initSelect_deterministic {σ : Type} (R : CRng σ) (a1 a2 : σ) (seed : ℕ)
    (allMdts : List Mdt) (minParticles : ℕ) :
    initSelect R a1 seed allMdts minParticles =
      initSelect R a2 seed allMdts minParticles := rfl

/-- C6: no micrograph with fewer than 2 particles is ever part of the
selected sample, for every micrograph list, seed, particle floor and PRNG. -/
theorem initSelect_min_two_particles {σ : Type} (R : CRng σ) (ambient : σ) (seed : ℕ)
    (allMdts : List Mdt) (minParticles : ℕ) (md : Mdt)
    (h : md ∈ initSelect R ambient seed allMdts minParticles) :
    2 ≤ md.numberOfObjects :=
  selectMdts_two_le allMdts minParticles _ 0 md h

theorem initSelect_min_two_particles_holds : 2 ≤ (Mdt.mk 3).numberOfObjects :=
  initSelect_min_two_particles (⟨fun _ => (), fun _ => ((), 0)⟩ : CRng Unit) () 0
    [Mdt.mk 3] 0 (Mdt.mk 3)
    (by
      norm_num [initSelect, genRandNums, sortIndices, selectMdts,
        List.insertionSort, List.orderedInsert, List.range_succ])

/-- C7: if both the pixel-space cutoff and the Angstrom-space cutoff are
positive, `init` stops with the both-cutoffs fatal error; the result does
not depend on the micrograph list or the PRNG, so no micrograph sampling
takes place (in the source the check at lines 73-76 precedes the sampling
at lines 128-179). -/
theorem mpeInit_cutoff_conflict {σ : Type} (R : CRng σ) (ambient : σ)
    (angToPix : ℝ → ℝ) (cfg : MpeConfig) (allMdts : List Mdt)
    (hp : cfg.paramsRead = true) (h1 : 0 < cfg.k_cutoff) (h2 : 0 < cfg.k_cutoff_Angst) :
    mpeInit R ambient true angToPix cfg allMdts = .error cutoffBothError := by
  simp [mpeInit, hp, h1, h2]

theorem mpeInit_cutoff_conflict_raises :
    mpeInit (⟨fun _ => (), fun _ => ((), 0)⟩ : CRng Unit) () true (fun x => x)
      ⟨true, false, false, 1, 1, -1, -1, 0, 0⟩ [] = .error cutoffBothError :=
  mpeInit_cutoff_conflict _ () (fun x => x) _ [] rfl (by norm_num) (by norm_num)

/-- C9: `problemToMotion` is a left inverse of `motionToProblem` in both the
2-parameter and the 3-parameter variant. -/
theorem problemToMotion_motionToProblem (v2 : ℝ × ℝ) (v3 : ℝ × ℝ × ℝ) :
    problemToMotion2 (motionToProblem2 v2) = v2 ∧
      problemToMotion3 (motionToProblem3 v3) = v3 := by
  unfold problemToMotion2 motionToProblem2 problemToMotion3 motionToProblem3
  unfold velScale divScale accScale
  norm_num

/-- C4, amended: for a nonnegative scaled optimum `nrm` (and positive
tolerance `conv`), the reported value is `conv / 2` times the nearest
integer (round half up) of `2 * nrm / conv`, divided back by the
per-dimension scale; the C `(int)` cast truncates toward zero, which
agrees with nearest-integer rounding exactly on this range. -/
theorem roundReport_nearest (nrm conv scale : ℝ) (h1 : 0 < conv) (h2 : 0 ≤ nrm) :
    roundReport nrm conv scale =
      conv * 0.5 * ((round (2 * nrm / conv) : ℤ) : ℝ) / scale := by
  have hq : (0:ℝ) ≤ 2.0 * nrm / conv :=
    div_nonneg (by linarith) h1.le
  have hy : (0:ℝ) ≤ 2.0 * nrm / conv + 0.5 := by linarith
  unfold roundReport truncToInt
  rw [if_pos hy, round_eq]
  norm_num

theorem roundReport_nearest_at_one :
    (0:ℝ) < 2 ∧ (0:ℝ) ≤ 1 ∧
      roundReport 1 2 1 = 2 * 0.5 * ((round ((2:ℝ) * 1 / 2) : ℤ) : ℝ) / 1 :=
  ⟨by norm_num, by norm_num, roundReport_nearest 1 2 1 (by norm_num) (by norm_num)⟩

/-- C4, counterexample: at the scaled optimum `nrm = -3` with `conv = 2`
the code reports `-2` (truncation toward zero of `-2.5`), while the
nearest integer to `2 * nrm / conv = -3` is `-3` itself. -/
theorem roundReport_not_nearest_on_negative :
    roundReport (-3) 2 1 ≠ 2 * 0.5 * ((round ((2:ℝ) * (-3) / 2) : ℤ) : ℝ) / 1 := by
  have h : ¬ (0:ℝ) ≤ 2.0 * (-3) / 2 + 0.5 := by norm_num
  unfold roundReport truncToInt
  rw [if_neg h]
  have hc : (⌈(2.0 * (-3) / 2 + 0.5 : ℝ)⌉ : ℤ) = -2 := by
    rw [Int.ceil_eq_iff]
    norm_num
  have hr : (round ((2:ℝ) * (-3) / 2) : ℤ) = -3 := by
    rw [show ((2:ℝ) * (-3) / 2) = ((-3 : ℤ) : ℝ) by norm_num, round_intCast]
  rw [hc, hr]
  norm_num

/-- C8, amended: on the 2-parameter path the reported acceleration sigma is
the supplied fixed sigma whenever that sigma is positive; a non-positive
fixed sigma is overridden by the later `opt[2] <= 0` check and reported as
the sentinel `-1`. -/
theorem runEstim2Sigmas_fixed_acc (vd : ℝ × ℝ) (sA conv : ℝ) (h : 0 < sA) :
    (runEstim2Sigmas vd sA conv).2.2 = sA := by
  simp [runEstim2Sigmas, reportedSigmas, h.not_le]

theorem runEstim2Sigmas_fixed_acc_pos :
    (0:ℝ) < 1 ∧ (runEstim2Sigmas (0, 0) 1 10).2.2 = 1 :=
  ⟨by norm_num, runEstim2Sigmas_fixed_acc (0, 0) 1 10 (by norm_num)⟩

/-- C8, counterexample: with fixed acceleration sigma `sA = 0` on the
2-parameter path, the reported acceleration sigma is `-1`, not `0`. -/
theorem runEstim2Sigmas_zero_acc_sentinel :
    (runEstim2Sigmas (0, 0) 0 10).2.2 ≠ 0 := by
  simp [runEstim2Sigmas, reportedSigmas]

/-- C3, amended: when the in/out score vector is empty before the call (as
at every call site), the per-candidate score is `0` whenever the product
of the two accumulated normalization weights is non-positive (no division
and no NaN occurs, because the quotient branch is simply not taken), and
equals `numerator / sqrt(weight1 * weight2)` otherwise. -/
theorem evaluateParams_fresh_score (pcs : List ℕ) (contrib : ℕ → ℕ → ℝ × ℝ × ℝ)
    (paramCount i : ℕ) (hi : i < paramCount) :
    ((accumTsc contrib pcs i).2.1 * (accumTsc contrib pcs i).2.2 ≤ 0 →
      (evaluateParams [] pcs contrib paramCount).getD i 0 = 0) ∧
    (0 < (accumTsc contrib pcs i).2.1 * (accumTsc contrib pcs i).2.2 →
      (evaluateParams [] pcs contrib paramCount).getD i 0 =
        (accumTsc contrib pcs i).1 /
          Real.sqrt ((accumTsc contrib pcs i).2.1 * (accumTsc contrib pcs i).2.2)) := by
  have key : (evaluateParams [] pcs contrib paramCount).getD i 0 =
      (if 0 < (accumTsc contrib pcs i).2.1 * (accumTsc contrib pcs i).2.2
       then (accumTsc contrib pcs i).1 /
         Real.sqrt ((accumTsc contrib pcs i).2.1 * (accumTsc contrib pcs i).2.2)
       else (resizeList [] paramCount).getD i 0) := by
    unfold evaluateParams finalTSCs
    simp only [List.length_map, List.length_range]
    rw [getD_map_range _ _ _ _ hi]
    rw [getD_map_range _ _ _ _ hi]
  constructor
  · intro h
    rw [key, if_neg (not_lt.mpr h), resizeList_nil_getD]
  · intro h
    rw [key, if_pos h]

theorem evaluateParams_fresh_score_zero_weights :
    ((accumTsc (fun _ _ => (0, 0, 0)) [] 0).2.1 *
        (accumTsc (fun _ _ => (0, 0, 0)) [] 0).2.2 ≤ 0 →
      (evaluateParams [] [] (fun _ _ => (0, 0, 0)) 1).getD 0 0 = 0) ∧
    (0 < (accumTsc (fun _ _ => (0, 0, 0)) [] 0).2.1 *
        (accumTsc (fun _ _ => (0, 0, 0)) [] 0).2.2 →
      (evaluateParams [] [] (fun _ _ => (0, 0, 0)) 1).getD 0 0 =
        (accumTsc (fun _ _ => (0, 0, 0)) [] 0).1 /
          Real.sqrt ((accumTsc (fun _ _ => (0, 0, 0)) [] 0).2.1 *
            (accumTsc (fun _ _ => (0, 0, 0)) [] 0).2.2)) :=
  evaluateParams_fresh_score [] (fun _ _ => (0, 0, 0)) 1 0 (by norm_num)

/-- C3, counterexample: `evaluateParams` writes into an in/out vector that
is only resized, so with a non-empty previous vector (here `[5]`) and a
candidate whose accumulated weights are zero, the returned entry is the
stale value `5`, not `0`. -/
theorem evaluateParams_stale_entry :
    ((accumTsc (fun _ _ => (0, 0, 0)) [] 0).2.1 *
        (accumTsc (fun _ _ => (0, 0, 0)) [] 0).2.2 ≤ 0) ∧
      (evaluateParams [5] [] (fun _ _ => (0, 0, 0)) 1).getD 0 0 ≠ 0 := by
  constructor
  · simp [accumTsc]
  · have h0 : accumTsc (fun _ _ => ((0:ℝ), (0:ℝ), (0:ℝ))) [] 0 = (0, 0, 0) := by
      simp [accumTsc]
    have key : (evaluateParams [5] [] (fun _ _ => (0, 0, 0)) 1).getD 0 0 = 5 := by
      unfold evaluateParams finalTSCs
      simp only [List.length_map, List.length_range]
      rw [getD_map_range _ _ _ _ (by norm_num : 0 < 1)]
      rw [getD_map_range _ _ _ _ (by norm_num : 0 < 1)]
      rw [h0]
      norm_num [resizeList, List.range_succ]
    rw [key]
    norm_num

/-- The candidate decay kernel `sigVals[r] = exp(-B * r * r / 4.0)` of
`BFactorRefiner::findBKRec1D` (source line 974). -/
noncomputable def decayKernel (B : ℝ) (r : ℕ) : ℝ :=
  Real.exp (-B * (r : ℝ) * (r : ℝ) / 4)

/-- The near-zero-denominator guard `eps = 1e-10` of `findBKRec1D`
(source line 962). -/
def bfacEps : ℝ := 1e-10

/-- The closed-form optimal scale for one candidate decay value (source
lines 977-992): `a = denom > eps ? num / denom : num / eps`, clamped below
at `min_scale`. -/
noncomputable def scaleFor (sh : ℕ) (t_rad s_rad : ℕ → ℝ) (B min_scale : ℝ) : ℝ :=
  let num := ∑ r in Finset.range sh, s_rad r * decayKernel B r
  let denom := ∑ r in Finset.range sh, t_rad r * decayKernel B r * decayKernel B r
  let a := if bfacEps < denom then num / denom else num / bfacEps
  if a < min_scale then min_scale else a

/-- The weighted residual accumulated for one candidate (source lines
994-1010): `sum += tr * a * a * br * br - 2.0 * a * br * sr` (the constant
`sr^2 / tr` term of the true weighted least-squares error is dropped). -/
noncomputable def residual1D (sh : ℕ) (t_rad s_rad : ℕ → ℝ) (B a : ℝ) : ℝ :=
  ∑ r in Finset.range sh,
    (t_rad r * a * a * decayKernel B r * decayKernel B r -
      2 * a * decayKernel B r * s_rad r)

/-- The `st`-th candidate decay value of one grid scan (source line 970):
`B = B0 + st * (B1 - B0) / (steps - 1)`. -/
noncomputable def candB (B0 B1 : ℝ) (steps st : ℕ) : ℝ :=
  B0 + (st : ℝ) * (B1 - B0) / ((steps : ℝ) - 1)

/-- The residual a scan records for decay value `B`: the residual at `B`
with its own clamped closed-form scale. -/
noncomputable def residAt (sh : ℕ) (t_rad s_rad : ℕ → ℝ) (min_scale B : ℝ) : ℝ :=
  residual1D sh t_rad s_rad B (scaleFor sh t_rad s_rad B min_scale)

/-- One iteration of the `for (st = 0; st < steps; st++)` scan of
`findBKRec1D` (source lines 968-1018), acting on the accumulator
`(minErr, bestB, bestA)`.  The C++ initial `minErr` is `DBL_MAX`, which is
idealized as `none` (larger than every real residual), so the first
iteration always installs its candidate. -/
noncomputable def scanStep (sh : ℕ) (t_rad s_rad : ℕ → ℝ) (B0 B1 min_scale : ℝ)
    (steps : ℕ) (acc : Option ℝ × ℝ × ℝ) (st : ℕ) : Option ℝ × ℝ × ℝ :=
  let B := candB B0 B1 steps st
  let a := scaleFor sh t_rad s_rad B min_scale
  let sum := residual1D sh t_rad s_rad B a
  match acc with
  | (none, _, _) => (some sum, B, a)
  | (some m, bB, bA) => if sum < m then (some sum, B, a) else (some m, bB, bA)

/-- The full grid scan of one `findBKRec1D` level, starting from the
initializers `minErr = DBL_MAX` (`none`), `bestB = B0`, `bestA = 1.0`
(source lines 958-960). -/
noncomputable def scanBK (sh : ℕ) (t_rad s_rad : ℕ → ℝ) (B0 B1 min_scale : ℝ)
    (steps : ℕ) : Option ℝ × ℝ × ℝ :=
  (List.range steps).foldl (scanStep sh t_rad s_rad B0 B1 min_scale steps) (none, B0, 1.0)

/-- `BFactorRefiner::findBKRec1D` (source lines 952-1035): scan the current
interval; at depth 0 return the best `(decay, scale)` pair, otherwise
recurse on the interval narrowed to one grid spacing around the best decay
value, clamped to the current bounds.  The search interval is passed after
`depth` so that the recursion is structural. -/
noncomputable def findBKRec1D (sh : ℕ) (t_rad s_rad : ℕ → ℝ) (min_scale : ℝ)
    (steps : ℕ) : ℕ → ℝ → ℝ → ℝ × ℝ
  | 0, B0, B1 => (scanBK sh t_rad s_rad B0 B1 min_scale steps).2
  | depth + 1, B0, B1 =>
    let bestB := (scanBK sh t_rad s_rad B0 B1 min_scale steps).2.1
    let hrange := (B1 - B0) / ((steps : ℝ) - 1)
    findBKRec1D sh t_rad s_rad min_scale steps depth
      (max B0 (bestB - hrange)) (min B1 (bestB + hrange))

lemma findBK_zero (sh : ℕ) (t_rad s_rad : ℕ → ℝ) (min_scale : ℝ) (steps : ℕ)
    (B0 B1 : ℝ) :
    findBKRec1D sh t_rad s_rad min_scale steps 0 B0 B1 =
      (scanBK sh t_rad s_rad B0 B1 min_scale steps).2 := rfl

lemma findBK_succ (sh : ℕ) (t_rad s_rad : ℕ → ℝ) (min_scale : ℝ) (steps d : ℕ)
    (B0 B1 : ℝ) :
    findBKRec1D sh t_rad s_rad min_scale steps (d + 1) B0 B1 =
      findBKRec1D sh t_rad s_rad min_scale steps d
        (max B0 ((scanBK sh t_rad s_rad B0 B1 min_scale steps).2.1 -
          (B1 - B0) / ((steps : ℝ) - 1)))
        (min B1 ((scanBK sh t_rad s_rad B0 B1 min_scale steps).2.1 +
          (B1 - B0) / ((steps : ℝ) - 1))) := rfl

lemma scaleFor_ge (sh : ℕ) (t_rad s_rad : ℕ → ℝ) (B min_scale : ℝ) :
    min_scale ≤ scaleFor sh t_rad s_rad B min_scale := by
  have key : ∀ x : ℝ, min_scale ≤ if x < min_scale then min_scale else x := by
    intro x
    split_ifs with h
    · exact le_refl _
    · exact le_of_not_lt h
  exact key _

lemma candB_mem (B0 B1 : ℝ) (steps st : ℕ) (hB : B0 ≤ B1) (h2 : 2 ≤ steps)
    (hst : st < steps) : candB B0 B1 steps st ∈ Set.Icc B0 B1 := by
  unfold candB
  have hd : (0:ℝ) < (steps : ℝ) - 1 := by
    have : (2:ℝ) ≤ (steps : ℝ) := by exact_mod_cast h2
    linarith
  have hnum : (0:ℝ) ≤ (st : ℝ) * (B1 - B0) :=
    mul_nonneg (Nat.cast_nonneg st) (sub_nonneg.mpr hB)
  constructor
  · have : (0:ℝ) ≤ (st : ℝ) * (B1 - B0) / ((steps : ℝ) - 1) := div_nonneg hnum hd.le
    linarith
  · have hcast : (st : ℝ) ≤ (steps : ℝ) - 1 := by
      have : (st : ℝ) + 1 ≤ (steps : ℝ) := by exact_mod_cast hst
      linarith
    have h4 : (st : ℝ) * (B1 - B0) / ((steps : ℝ) - 1) ≤ B1 - B0 := by
      rw [div_le_iff₀ hd]
      nlinarith [mul_le_mul_of_nonneg_right hcast (sub_nonneg.mpr hB)]
    linarith

/-- The accumulator is a coherent candidate entry: its stored error, decay
and scale all belong to one grid candidate of the current scan. -/
def IsCand (sh : ℕ) (t_rad s_rad : ℕ → ℝ) (B0 B1 min_scale : ℝ) (steps : ℕ)
    (acc : Option ℝ × ℝ × ℝ) : Prop :=
  ∃ st, st < steps ∧
    acc = (some (residAt sh t_rad s_rad min_scale (candB B0 B1 steps st)),
      candB B0 B1 steps st,
      scaleFor sh t_rad s_rad (candB B0 B1 steps st) min_scale)

lemma scanStep_none (sh : ℕ) (t_rad s_rad : ℕ → ℝ) (B0 B1 min_scale : ℝ)
    (steps : ℕ) (x y : ℝ) (st : ℕ) :
    scanStep sh t_rad s_rad B0 B1 min_scale steps (none, x, y) st =
      (some (residAt sh t_rad s_rad min_scale (candB B0 B1 steps st)),
        candB B0 B1 steps st,
        scaleFor sh t_rad s_rad (candB B0 B1 steps st) min_scale) := rfl

lemma scanStep_some (sh : ℕ) (t_rad s_rad : ℕ → ℝ) (B0 B1 min_scale : ℝ)
    (steps : ℕ) (m bB bA : ℝ) (st : ℕ) :
    scanStep sh t_rad s_rad B0 B1 min_scale steps (some m, bB, bA) st =
      if residAt sh t_rad s_rad min_scale (candB B0 B1 steps st) < m
      then (some (residAt sh t_rad s_rad min_scale (candB B0 B1 steps st)),
        candB B0 B1 steps st,
        scaleFor sh t_rad s_rad (candB B0 B1 steps st) min_scale)
      else (some m, bB, bA) := rfl

lemma foldl_scan_cand (sh : ℕ) (t_rad s_rad : ℕ → ℝ) (B0 B1 min_scale : ℝ)
    (steps : ℕ) :
    ∀ (l : List ℕ) (acc : Option ℝ × ℝ × ℝ), (∀ st ∈ l, st < steps) →
      IsCand sh t_rad s_rad B0 B1 min_scale steps acc →
      IsCand sh t_rad s_rad B0 B1 min_scale steps
        (l.foldl (scanStep sh t_rad s_rad B0 B1 min_scale steps) acc) := by
  intro l
  induction l with
  | nil => intro acc _ h; exact h
  | cons st rest ih =>
    intro acc hl h
    rw [List.foldl_cons]
    apply ih _ (fun x hx => hl x (List.mem_cons_of_mem _ hx))
    obtain ⟨st0, hst0, rfl⟩ := h
    rw [scanStep_some]
    split_ifs with hlt
    · exact ⟨st, hl st (List.mem_cons_self _ _), rfl⟩
    · exact ⟨st0, hst0, rfl⟩

lemma scan_cand (sh : ℕ) (t_rad s_rad : ℕ → ℝ) (B0 B1 min_scale : ℝ) (steps : ℕ)
    (hsteps : 1 ≤ steps) :
    IsCand sh t_rad s_rad B0 B1 min_scale steps
      (scanBK sh t_rad s_rad B0 B1 min_scale steps) := by
  obtain ⟨n, rfl⟩ : ∃ n, steps = n + 1 :=
    ⟨steps - 1, (Nat.succ_pred_eq_of_pos hsteps).symm⟩
  unfold scanBK
  rw [List.range_succ_eq_map, List.foldl_cons, scanStep_none]
  apply foldl_scan_cand
  · intro x hx
    obtain ⟨y, hy, rfl⟩ := List.mem_map.mp hx
    have := List.mem_range.mp hy
    omega
  · exact ⟨0, Nat.succ_pos n, rfl⟩

lemma scanStep_fst_le (sh : ℕ) (t_rad s_rad : ℕ → ℝ) (B0 B1 min_scale : ℝ)
    (steps : ℕ) (acc : Option ℝ × ℝ × ℝ) (st : ℕ) :
    ∃ m1, (scanStep sh t_rad s_rad B0 B1 min_scale steps acc st).1 = some m1 ∧
      m1 ≤ residAt sh t_rad s_rad min_scale (candB B0 B1 steps st) ∧
      (∀ m, acc.1 = some m → m1 ≤ m) := by
  rcases acc with ⟨mo, bB, bA⟩
  rcases mo with _ | m
  · rw [scanStep_none]
    refine ⟨_, rfl, le_refl _, ?_⟩
    intro m h
    simp at h
  · rw [scanStep_some]
    split_ifs with hlt
    · refine ⟨_, rfl, le_refl _, ?_⟩
      intro m' h
      injection h with h2
      rw [← h2]
      exact le_of_lt hlt
    · refine ⟨m, rfl, not_lt.mp hlt, ?_⟩
      intro m' h
      injection h with h2
      rw [← h2]

lemma foldl_scan_mono (sh : ℕ) (t_rad s_rad : ℕ → ℝ) (B0 B1 min_scale : ℝ)
    (steps : ℕ) :
    ∀ (l : List ℕ) (acc : Option ℝ × ℝ × ℝ) (m : ℝ), acc.1 = some m →
      ∃ m1, (l.foldl (scanStep sh t_rad s_rad B0 B1 min_scale steps) acc).1 = some m1 ∧
        m1 ≤ m := by
  intro l
  induction l with
  | nil => intro acc m h; exact ⟨m, h, le_refl m⟩
  | cons st rest ih =>
    intro acc m h
    rw [List.foldl_cons]
    obtain ⟨m1, h1, _, h3⟩ :=
      scanStep_fst_le sh t_rad s_rad B0 B1 min_scale steps acc st
    obtain ⟨m2, h4, h5⟩ := ih _ m1 h1
    exact ⟨m2, h4, le_trans h5 (h3 m h)⟩

lemma foldl_scan_min (sh : ℕ) (t_rad s_rad : ℕ → ℝ) (B0 B1 min_scale : ℝ)
    (steps : ℕ) :
    ∀ (l : List ℕ) (acc : Option ℝ × ℝ × ℝ) (st : ℕ), st ∈ l →
      ∃ m1, (l.foldl (scanStep sh t_rad s_rad B0 B1 min_scale steps) acc).1 = some m1 ∧
        m1 ≤ residAt sh t_rad s_rad min_scale (candB B0 B1 steps st) := by
  intro l
  induction l with
  | nil => intro acc st h; simp at h
  | cons st0 rest ih =>
    intro acc st h
    rw [List.foldl_cons]
    rcases List.mem_cons.mp h with rfl | hmem
    · obtain ⟨m1, h1, h2, _⟩ :=
        scanStep_fst_le sh t_rad s_rad B0 B1 min_scale steps acc st
      obtain ⟨m2, h4, h5⟩ := foldl_scan_mono sh t_rad s_rad B0 B1 min_scale steps rest _ m1 h1
      exact ⟨m2, h4, le_trans h5 h2⟩
    · exact ih _ st hmem

lemma scan_min (sh : ℕ) (t_rad s_rad : ℕ → ℝ) (B0 B1 min_scale : ℝ) (steps st : ℕ)
    (hst : st < steps) :
    ∃ m1, (scanBK sh t_rad s_rad B0 B1 min_scale steps).1 = some m1 ∧
      m1 ≤ residAt sh t_rad s_rad min_scale (candB B0 B1 steps st) :=
  foldl_scan_min sh t_rad s_rad B0 B1 min_scale steps (List.range steps) _ st
    (List.mem_range.mpr hst)

lemma scan_bounds (sh : ℕ) (t_rad s_rad : ℕ → ℝ) (B0 B1 min_scale : ℝ) (steps : ℕ)
    (hB : B0 ≤ B1) (h2 : 2 ≤ steps) :
    B0 ≤ (scanBK sh t_rad s_rad B0 B1 min_scale steps).2.1 ∧
      (scanBK sh t_rad s_rad B0 B1 min_scale steps).2.1 ≤ B1 ∧
      min_scale ≤ (scanBK sh t_rad s_rad B0 B1 min_scale steps).2.2 := by
  obtain ⟨st, hst, heq⟩ :=
    scan_cand sh t_rad s_rad B0 B1 min_scale steps (le_trans one_le_two h2)
  rw [heq]
  have hmem := candB_mem B0 B1 steps st hB h2 hst
  exact ⟨hmem.1, hmem.2, scaleFor_ge sh t_rad s_rad _ min_scale⟩

lemma narrow_ok (sh : ℕ) (t_rad s_rad : ℕ → ℝ) (B0 B1 min_scale : ℝ) (steps : ℕ)
    (hB : B0 ≤ B1) (h2 : 2 ≤ steps) :
    B0 ≤ max B0 ((scanBK sh t_rad s_rad B0 B1 min_scale steps).2.1 -
        (B1 - B0) / ((steps : ℝ) - 1)) ∧
    min B1 ((scanBK sh t_rad s_rad B0 B1 min_scale steps).2.1 +
        (B1 - B0) / ((steps : ℝ) - 1)) ≤ B1 ∧
    max B0 ((scanBK sh t_rad s_rad B0 B1 min_scale steps).2.1 -
        (B1 - B0) / ((steps : ℝ) - 1)) ≤
      min B1 ((scanBK sh t_rad s_rad B0 B1 min_scale steps).2.1 +
        (B1 - B0) / ((steps : ℝ) - 1)) := by
  have hb := scan_bounds sh t_rad s_rad B0 B1 min_scale steps hB h2
  have hd : (0:ℝ) < (steps : ℝ) - 1 := by
    have : (2:ℝ) ≤ (steps : ℝ) := by exact_mod_cast h2
    linarith
  have hh : (0:ℝ) ≤ (B1 - B0) / ((steps : ℝ) - 1) :=
    div_nonneg (sub_nonneg.mpr hB) hd.le
  refine ⟨le_max_left _ _, min_le_left _ _, ?_⟩
  exact le_trans (max_le hb.1 (by linarith [hb.1])) (le_min hb.2.1 (by linarith [hb.2.1]))

lemma findBK_bounds (sh : ℕ) (t_rad s_rad : ℕ → ℝ) (min_scale : ℝ) (steps : ℕ)
    (h2 : 2 ≤ steps) :
    ∀ (d : ℕ) (B0 B1 : ℝ), B0 ≤ B1 →
      B0 ≤ (findBKRec1D sh t_rad s_rad min_scale steps d B0 B1).1 ∧
      (findBKRec1D sh t_rad s_rad min_scale steps d B0 B1).1 ≤ B1 ∧
      min_scale ≤ (findBKRec1D sh t_rad s_rad min_scale steps d B0 B1).2 := by
  intro d
  induction d with
  | zero =>
    intro B0 B1 hB
    rw [findBK_zero]
    exact scan_bounds sh t_rad s_rad B0 B1 min_scale steps hB h2
  | succ d ih =>
    intro B0 B1 hB
    rw [findBK_succ]
    obtain ⟨hn1, hn2, hn3⟩ := narrow_ok sh t_rad s_rad B0 B1 min_scale steps hB h2
    obtain ⟨g1, g2, g3⟩ := ih _ _ hn3
    exact ⟨le_trans hn1 g1, le_trans g2 hn2, g3⟩

/-- C1, amended: for every pair of radial profiles, every interval
`[B0, B1]` with `B0 < B1`, every depth and every `min_scale`, and every
step count of at least 2 (the code always uses `stepsPerIter = 20`), the
returned decay value lies in `[B0, B1]` and the returned scale is at least
`min_scale`. -/
theorem findBKRec1D_in_bounds (sh : ℕ) (t_rad s_rad : ℕ → ℝ)
    (B0 B1 min_scale : ℝ) (steps depth : ℕ)
    (hB : B0 < B1) (hsteps : 2 ≤ steps) :
    B0 ≤ (findBKRec1D sh t_rad s_rad min_scale steps depth B0 B1).1 ∧
    (findBKRec1D sh t_rad s_rad min_scale steps depth B0 B1).1 ≤ B1 ∧
    min_scale ≤ (findBKRec1D sh t_rad s_rad min_scale steps depth B0 B1).2 :=
  findBK_bounds sh t_rad s_rad min_scale steps hsteps depth B0 B1 hB.le

theorem findBKRec1D_in_bounds_concrete :
    (0:ℝ) ≤ (findBKRec1D 0 (fun _ => 0) (fun _ => 0) 0 2 0 0 1).1 ∧
    (findBKRec1D 0 (fun _ => 0) (fun _ => 0) 0 2 0 0 1).1 ≤ 1 ∧
    (0:ℝ) ≤ (findBKRec1D 0 (fun _ => 0) (fun _ => 0) 0 2 0 0 1).2 :=
  findBKRec1D_in_bounds 0 (fun _ => 0) (fun _ => 0) 0 1 0 2 0 (by norm_num) (by norm_num)

/-- C1, counterexample: with step count 0 (the claim quantifies over every
step count) the scan loop never runs, so the initializers `bestB = B0`,
`bestA = 1.0` are returned unchanged and the scale `1.0` is below
`min_scale = 2`. -/
theorem findBKRec1D_scale_cex :
    (findBKRec1D 0 (fun _ => 0) (fun _ => 0) 2 0 0 0 1).2 < 2 := by
  norm_num [findBK_zero, scanBK]

/-- The B-factor value written into the metadata table for every particle of
a processed micrograph by `BFactorRefiner::processMicrograph` (source lines
579-585, 638-645 and 690-713): the fit runs over
`[min_B / as^2, max_B / as^2]` with `as = s * angpix`, 20 steps per
iteration and 5 recursion levels, and the stored value is
`as * as * BK[0] - min_B`. -/
noncomputable def bfacWrittenB (sh : ℕ) (t_rad s_rad : ℕ → ℝ) (simg : ℕ)
    (angpix min_B max_B min_scale : ℝ) : ℝ :=
  let as := (simg : ℝ) * angpix
  let BK := findBKRec1D sh t_rad s_rad min_scale 20 5
    (min_B / (as * as)) (max_B / (as * as))
  as * as * BK.1 - min_B

/-- C10: the per-particle B-factor value written to the metadata table is
the fitted per-pixel decay times `(s * angpix)^2` minus `min_B`, and (for
a positive pixel size and ordered B-factor bounds) lies in
`[0, max_B - min_B]`. -/
theorem bfacWrittenB_range (sh : ℕ) (t_rad s_rad : ℕ → ℝ) (simg : ℕ)
    (angpix min_B max_B min_scale : ℝ)
    (hpix : 0 < (simg : ℝ) * angpix) (hBB : min_B ≤ max_B) :
    bfacWrittenB sh t_rad s_rad simg angpix min_B max_B min_scale =
      ((simg : ℝ) * angpix) * ((simg : ℝ) * angpix) *
        (findBKRec1D sh t_rad s_rad min_scale 20 5
          (min_B / (((simg : ℝ) * angpix) * ((simg : ℝ) * angpix)))
          (max_B / (((simg : ℝ) * angpix) * ((simg : ℝ) * angpix)))).1 - min_B ∧
    0 ≤ bfacWrittenB sh t_rad s_rad simg angpix min_B max_B min_scale ∧
    bfacWrittenB sh t_rad s_rad simg angpix min_B max_B min_scale ≤ max_B - min_B := by
  have has : (0:ℝ) < ((simg : ℝ) * angpix) * ((simg : ℝ) * angpix) := mul_pos hpix hpix
  have hdiv : min_B / (((simg : ℝ) * angpix) * ((simg : ℝ) * angpix)) ≤
      max_B / (((simg : ℝ) * angpix) * ((simg : ℝ) * angpix)) :=
    (div_le_div_iff_of_pos_right has).mpr hBB
  obtain ⟨g1, g2, _⟩ := findBK_bounds sh t_rad s_rad min_scale 20 (by norm_num) 5 _ _ hdiv
  refine ⟨rfl, ?_, ?_⟩
  · have := (div_le_iff₀ has).mp g1
    unfold bfacWrittenB
    dsimp only
    nlinarith [this]
  · have := (le_div_iff₀ has).mp g2
    unfold bfacWrittenB
    dsimp only
    nlinarith [this]

theorem bfacWrittenB_range_concrete :
    bfacWrittenB 0 (fun _ => 0) (fun _ => 0) 1 1 0 1 0 =
      ((1 : ℕ) : ℝ) * 1 * (((1 : ℕ) : ℝ) * 1) *
        (findBKRec1D 0 (fun _ => 0) (fun _ => 0) 0 20 5
          (0 / ((((1 : ℕ) : ℝ) * 1) * (((1 : ℕ) : ℝ) * 1)))
          (1 / ((((1 : ℕ) : ℝ) * 1) * (((1 : ℕ) : ℝ) * 1)))).1 - 0 ∧
    0 ≤ bfacWrittenB 0 (fun _ => 0) (fun _ => 0) 1 1 0 1 0 ∧
    bfacWrittenB 0 (fun _ => 0) (fun _ => 0) 1 1 0 1 0 ≤ 1 - 0 :=
  bfacWrittenB_range 0 (fun _ => 0) (fun _ => 0) 1 1 0 1 0 (by norm_num) (by norm_num)

lemma candB_as_mul (B0 B1 : ℝ) (steps j : ℕ) :
    candB B0 B1 steps j = B0 + (j : ℝ) * ((B1 - B0) / ((steps : ℝ) - 1)) := by
  unfold candB
  ring

/-- For an odd step count, the best decay value of one scan is itself a
grid candidate of the narrowed interval scanned by the next recursion
level: interior best points sit exactly at the middle grid index, and
clamped best points sit at the first or last grid index. -/
lemma refine_grid_mem (B0 B1 : ℝ) (steps : ℕ) (hB : B0 ≤ B1) (h2 : 2 ≤ steps)
    (hodd : Odd steps) (st : ℕ) (hst : st < steps) :
    ∃ st2, st2 < steps ∧
      candB (max B0 (candB B0 B1 steps st - (B1 - B0) / ((steps : ℝ) - 1)))
          (min B1 (candB B0 B1 steps st + (B1 - B0) / ((steps : ℝ) - 1))) steps st2 =
        candB B0 B1 steps st := by
  have hd : (0:ℝ) < (steps : ℝ) - 1 := by
    have : (2:ℝ) ≤ (steps : ℝ) := by exact_mod_cast h2
    linarith
  set h := (B1 - B0) / ((steps : ℝ) - 1) with hh_def
  have hh0 : 0 ≤ h := div_nonneg (sub_nonneg.mpr hB) hd.le
  have hhle : h ≤ B1 - B0 := by
    rw [hh_def]
    apply div_le_self (sub_nonneg.mpr hB)
    have : (2:ℝ) ≤ (steps : ℝ) := by exact_mod_cast h2
    linarith
  by_cases hst0 : st = 0
  · subst hst0
    have hc0 : candB B0 B1 steps 0 = B0 := by
      rw [candB_as_mul]
      norm_num
    rw [hc0, max_eq_left (by linarith), min_eq_right (by linarith)]
    refine ⟨0, by omega, ?_⟩
    rw [candB_as_mul]
    norm_num
  · by_cases hstl : st = steps - 1
    · subst hstl
      have hcast : ((steps - 1 : ℕ) : ℝ) = (steps : ℝ) - 1 := by
        push_cast [Nat.cast_sub (by omega : 1 ≤ steps)]
        ring
      have hfull : ((steps : ℝ) - 1) * ((B1 - B0) / ((steps : ℝ) - 1)) = B1 - B0 := by
        field_simp
      have hcl : candB B0 B1 steps (steps - 1) = B1 := by
        rw [candB_as_mul, hcast, hfull]
        ring
      rw [hcl, max_eq_right (by linarith), min_eq_left (by linarith)]
      refine ⟨steps - 1, by omega, ?_⟩
      rw [candB_as_mul, hcast]
      have hcc : ((steps : ℝ) - 1) * ((B1 - (B1 - h)) / ((steps : ℝ) - 1)) = h := by
        field_simp
      linarith [hcc]
    · -- interior best: 1 ≤ st ≤ steps - 2
      have hst1 : 1 ≤ st := by omega
      have hst2 : st + 2 ≤ steps := by omega
      have hmul := candB_as_mul B0 B1 steps st
      have hlo : B0 ≤ candB B0 B1 steps st - h := by
        rw [hmul]
        have : (0:ℝ) ≤ ((st : ℝ) - 1) * h := by
          apply mul_nonneg _ hh0
          have : (1:ℝ) ≤ (st : ℝ) := by exact_mod_cast hst1
          linarith
        nlinarith [this]
      have hhi : candB B0 B1 steps st + h ≤ B1 := by
        rw [hmul]
        have hc : (st : ℝ) + 2 ≤ (steps : ℝ) := by exact_mod_cast hst2
        have hB1 : B0 + ((steps : ℝ) - 1) * h = B1 := by
          rw [hh_def]
          field_simp
        have : ((st : ℝ) + 1) * h ≤ ((steps : ℝ) - 1) * h :=
          mul_le_mul_of_nonneg_right (by linarith) hh0
        nlinarith [this]
      rw [max_eq_right hlo, min_eq_right hhi]
      obtain ⟨k, hk⟩ := hodd
      have hk1 : 1 ≤ k := by omega
      refine ⟨k, by omega, ?_⟩
      rw [candB_as_mul]
      have hkcast : (steps : ℝ) - 1 = 2 * (k : ℝ) := by
        have : (steps : ℝ) = 2 * (k : ℝ) + 1 := by exact_mod_cast hk
        linarith
      have harg : candB B0 B1 steps st + h - (candB B0 B1 steps st - h) = 2 * h := by
        ring
      rw [harg, hkcast]
      have hkne : (k : ℝ) ≠ 0 := by
        have : (1:ℝ) ≤ (k : ℝ) := by exact_mod_cast hk1
        linarith
      have : (k : ℝ) * (2 * h / (2 * (k : ℝ))) = h := by
        field_simp
        ring
      rw [this]
      ring

lemma findBK_pair (sh : ℕ) (t_rad s_rad : ℕ → ℝ) (min_scale : ℝ) (steps : ℕ)
    (hsteps : 1 ≤ steps) :
    ∀ (d : ℕ) (B0 B1 : ℝ), ∃ B, findBKRec1D sh t_rad s_rad min_scale steps d B0 B1 =
      (B, scaleFor sh t_rad s_rad B min_scale) := by
  intro d
  induction d with
  | zero =>
    intro B0 B1
    obtain ⟨st, hst, heq⟩ := scan_cand sh t_rad s_rad B0 B1 min_scale steps hsteps
    rw [findBK_zero, heq]
    exact ⟨_, rfl⟩
  | succ d ih =>
    intro B0 B1
    rw [findBK_succ]
    exact ih _ _

lemma findBK_resid_mono (sh : ℕ) (t_rad s_rad : ℕ → ℝ) (min_scale : ℝ) (steps : ℕ)
    (h2 : 2 ≤ steps) (hodd : Odd steps) :
    ∀ (d : ℕ) (B0 B1 : ℝ), B0 ≤ B1 →
      residAt sh t_rad s_rad min_scale
          (findBKRec1D sh t_rad s_rad min_scale steps (d + 1) B0 B1).1 ≤
        residAt sh t_rad s_rad min_scale
          (findBKRec1D sh t_rad s_rad min_scale steps d B0 B1).1 := by
  have h1 : 1 ≤ steps := le_trans one_le_two h2
  intro d
  induction d with
  | zero =>
    intro B0 B1 hB
    rw [findBK_succ, findBK_zero, findBK_zero]
    obtain ⟨st, hst, heq⟩ := scan_cand sh t_rad s_rad B0 B1 min_scale steps h1
    rw [heq]
    obtain ⟨st2, hst2, heq2⟩ := refine_grid_mem B0 B1 steps hB h2 hodd st hst
    obtain ⟨m1, hm1, hm2⟩ := scan_min sh t_rad s_rad
      (max B0 (candB B0 B1 steps st - (B1 - B0) / ((steps : ℝ) - 1)))
      (min B1 (candB B0 B1 steps st + (B1 - B0) / ((steps : ℝ) - 1)))
      min_scale steps st2 hst2
    obtain ⟨st3, hst3, heq3⟩ := scan_cand sh t_rad s_rad
      (max B0 (candB B0 B1 steps st - (B1 - B0) / ((steps : ℝ) - 1)))
      (min B1 (candB B0 B1 steps st + (B1 - B0) / ((steps : ℝ) - 1)))
      min_scale steps h1
    rw [heq3] at hm1 ⊢
    simp only [Option.some.injEq] at hm1
    rw [heq2] at hm2
    rw [← hm1] at hm2
    exact hm2
  | succ d ih =>
    intro B0 B1 hB
    rw [findBK_succ sh t_rad s_rad min_scale steps (d + 1) B0 B1,
      findBK_succ sh t_rad s_rad min_scale steps d B0 B1]
    exact ih _ _ (narrow_ok sh t_rad s_rad B0 B1 min_scale steps hB h2).2.2

/-- C2, amended: for identical inputs and interval and an odd step count of
at least 3 (even step counts can place no refined grid point on the
previous best decay value, so the residual can then increase), recursion
depth `d + 1` yields a result whose recorded weighted least-squares
residual is at most that of the depth-`d` result.  The residual is the one
the code minimizes: the true weighted squared error minus the
`s_rad^2 / t_rad` term, which is constant in `(decay, scale)` and hence
does not affect the comparison. -/
theorem findBKRec1D_monotone_refinement (sh : ℕ) (t_rad s_rad : ℕ → ℝ)
    (B0 B1 min_scale : ℝ) (steps d : ℕ)
    (hB : B0 ≤ B1) (hsteps : 2 ≤ steps) (hodd : Odd steps) :
    residual1D sh t_rad s_rad
        (findBKRec1D sh t_rad s_rad min_scale steps (d + 1) B0 B1).1
        (findBKRec1D sh t_rad s_rad min_scale steps (d + 1) B0 B1).2 ≤
      residual1D sh t_rad s_rad
        (findBKRec1D sh t_rad s_rad min_scale steps d B0 B1).1
        (findBKRec1D sh t_rad s_rad min_scale steps d B0 B1).2 := by
  have h1 : 1 ≤ steps := le_trans one_le_two hsteps
  obtain ⟨Ba, ha⟩ := findBK_pair sh t_rad s_rad min_scale steps h1 (d + 1) B0 B1
  obtain ⟨Bb, hb⟩ := findBK_pair sh t_rad s_rad min_scale steps h1 d B0 B1
  have hmono := findBK_resid_mono sh t_rad s_rad min_scale steps hsteps hodd d B0 B1 hB
  rw [ha, hb] at hmono ⊢
  exact hmono

theorem findBKRec1D_monotone_refinement_concrete :
    residual1D 0 (fun _ => 0) (fun _ => 0)
        (findBKRec1D 0 (fun _ => 0) (fun _ => 0) 0 3 1 0 1).1
        (findBKRec1D 0 (fun _ => 0) (fun _ => 0) 0 3 1 0 1).2 ≤
      residual1D 0 (fun _ => 0) (fun _ => 0)
        (findBKRec1D 0 (fun _ => 0) (fun _ => 0) 0 3 0 0 1).1
        (findBKRec1D 0 (fun _ => 0) (fun _ => 0) 0 3 0 0 1).2 :=
  findBKRec1D_monotone_refinement 0 (fun _ => 0) (fun _ => 0) 0 1 0 3 0
    (by norm_num) (by norm_num) ⟨1, by norm_num⟩

/-- Radial predicted-power profile of the depth-refinement counterexample. -/
def tcx : ℕ → ℝ := fun r => if r = 0 then 1 else 100

/-- Radial cross-term profile of the depth-refinement counterexample. -/
def scx : ℕ → ℝ := fun r => if r = 0 then -20 else 78

lemma scaleFor_eq (sh : ℕ) (t_rad s_rad : ℕ → ℝ) (B min_scale : ℝ) :
    scaleFor sh t_rad s_rad B min_scale =
      if (if bfacEps < ∑ r in Finset.range sh, t_rad r * decayKernel B r * decayKernel B r
          then (∑ r in Finset.range sh, s_rad r * decayKernel B r) /
            (∑ r in Finset.range sh, t_rad r * decayKernel B r * decayKernel B r)
          else (∑ r in Finset.range sh, s_rad r * decayKernel B r) / bfacEps) < min_scale
      then min_scale
      else (if bfacEps < ∑ r in Finset.range sh, t_rad r * decayKernel B r * decayKernel B r
          then (∑ r in Finset.range sh, s_rad r * decayKernel B r) /
            (∑ r in Finset.range sh, t_rad r * decayKernel B r * decayKernel B r)
          else (∑ r in Finset.range sh, s_rad r * decayKernel B r) / bfacEps) := rfl

lemma decayKernel_zero (B : ℝ) : decayKernel B 0 = 1 := by
  unfold decayKernel
  norm_num

lemma decayKernel_one (B : ℝ) : decayKernel B 1 = Real.exp (-(B / 4)) := by
  unfold decayKernel
  congr 1
  push_cast
  ring

lemma sum_num_cx (B : ℝ) :
    ∑ r in Finset.range 2, scx r * decayKernel B r =
      78 * Real.exp (-(B / 4)) - 20 := by
  rw [Finset.sum_range_succ, Finset.sum_range_one, decayKernel_zero, decayKernel_one]
  norm_num [scx]
  ring

lemma sum_den_cx (B : ℝ) :
    ∑ r in Finset.range 2, tcx r * decayKernel B r * decayKernel B r =
      1 + 100 * Real.exp (-(B / 4)) ^ 2 := by
  rw [Finset.sum_range_succ, Finset.sum_range_one, decayKernel_zero, decayKernel_one]
  norm_num [tcx]
  ring

lemma scaleFor_cx (B : ℝ) : scaleFor 2 tcx scx B 1 = 1 := by
  have he : (0:ℝ) < Real.exp (-(B / 4)) := Real.exp_pos _
  have hsq : (0:ℝ) ≤ Real.exp (-(B / 4)) ^ 2 := sq_nonneg _
  rw [scaleFor_eq, sum_num_cx, sum_den_cx]
  have hden_gt : bfacEps < 1 + 100 * Real.exp (-(B / 4)) ^ 2 := by
    unfold bfacEps
    nlinarith [hsq]
  rw [if_pos hden_gt]
  have hdp : (0:ℝ) < 1 + 100 * Real.exp (-(B / 4)) ^ 2 := by nlinarith [hsq]
  have hlt : (78 * Real.exp (-(B / 4)) - 20) / (1 + 100 * Real.exp (-(B / 4)) ^ 2) < 1 := by
    rw [div_lt_one hdp]
    nlinarith [sq_nonneg (10 * Real.exp (-(B / 4)) - 39 / 10)]
  rw [if_pos hlt]

lemma residual_cx (B : ℝ) :
    residual1D 2 tcx scx B 1 =
      100 * Real.exp (-(B / 4)) ^ 2 - 156 * Real.exp (-(B / 4)) + 41 := by
  unfold residual1D
  rw [Finset.sum_range_succ, Finset.sum_range_one, decayKernel_zero, decayKernel_one]
  norm_num [tcx, scx]
  ring

lemma residAt_cx (B : ℝ) :
    residAt 2 tcx scx 1 B =
      100 * Real.exp (-(B / 4)) ^ 2 - 156 * Real.exp (-(B / 4)) + 41 := by
  unfold residAt
  rw [scaleFor_cx, residual_cx]

lemma u_bounds : (11/12 : ℝ) ≤ Real.exp (-(1/12 : ℝ)) ∧
    Real.exp (-(1/12 : ℝ)) ≤ 12/13 := by
  constructor
  · have h := Real.add_one_le_exp (-(1/12) : ℝ)
    linarith
  · have h13 : (13/12 : ℝ) ≤ Real.exp ((1/12) : ℝ) := by
      have := Real.add_one_le_exp ((1/12) : ℝ)
      linarith
    have hneg : Real.exp (-(1/12) : ℝ) = (Real.exp ((1/12) : ℝ))⁻¹ := Real.exp_neg _
    have h2 : (12/13 : ℝ) = ((13/12 : ℝ))⁻¹ := by norm_num
    rw [hneg, h2]
    exact inv_anti₀ (by norm_num) h13

lemma exp_div12_pow (n : ℕ) (q : ℝ) (hq : (n : ℝ) * (-(1/12)) = q) :
    Real.exp q = Real.exp (-(1/12 : ℝ)) ^ n := by
  rw [← hq, Real.exp_nat_mul]

lemma cex_G_u3_lt :
    100 * (Real.exp (-(1/12 : ℝ)) ^ 3) ^ 2 - 156 * Real.exp (-(1/12 : ℝ)) ^ 3 + 41 <
      -98/5 := by
  obtain ⟨h1, h2⟩ := u_bounds
  have h0 : (0:ℝ) ≤ 11/12 := by norm_num
  have hl : (1331/1728 : ℝ) ≤ Real.exp (-(1/12 : ℝ)) ^ 3 := by
    calc (1331/1728 : ℝ) = (11/12) ^ 3 := by norm_num
    _ ≤ Real.exp (-(1/12 : ℝ)) ^ 3 := pow_le_pow_left₀ h0 h1 3
  have hh : Real.exp (-(1/12 : ℝ)) ^ 3 ≤ (1728/2197 : ℝ) := by
    calc Real.exp (-(1/12 : ℝ)) ^ 3 ≤ (12/13) ^ 3 :=
      pow_le_pow_left₀ (le_trans h0 h1) h2 3
    _ = (1728/2197 : ℝ) := by norm_num
  nlinarith [mul_pos (show (0:ℝ) < Real.exp (-(1/12 : ℝ)) ^ 3 - 76/100 by linarith)
    (show (0:ℝ) < 80/100 - Real.exp (-(1/12 : ℝ)) ^ 3 by linarith)]

lemma cex_G_u2_gt :
    (-98/5 : ℝ) <
      100 * (Real.exp (-(1/12 : ℝ)) ^ 2) ^ 2 - 156 * Real.exp (-(1/12 : ℝ)) ^ 2 + 41 := by
  obtain ⟨h1, _⟩ := u_bounds
  have h0 : (0:ℝ) ≤ 11/12 := by norm_num
  have hl : (121/144 : ℝ) ≤ Real.exp (-(1/12 : ℝ)) ^ 2 := by
    calc (121/144 : ℝ) = (11/12) ^ 2 := by norm_num
    _ ≤ Real.exp (-(1/12 : ℝ)) ^ 2 := pow_le_pow_left₀ h0 h1 2
  nlinarith [mul_pos (show (0:ℝ) < Real.exp (-(1/12 : ℝ)) ^ 2 - 83/100 by linarith)
    (show (0:ℝ) < Real.exp (-(1/12 : ℝ)) ^ 2 - 73/100 by linarith)]

lemma cex_G_u4_gt :
    (-98/5 : ℝ) <
      100 * (Real.exp (-(1/12 : ℝ)) ^ 4) ^ 2 - 156 * Real.exp (-(1/12 : ℝ)) ^ 4 + 41 := by
  obtain ⟨h1, h2⟩ := u_bounds
  have h0 : (0:ℝ) ≤ 11/12 := by norm_num
  have hh : Real.exp (-(1/12 : ℝ)) ^ 4 ≤ (20736/28561 : ℝ) := by
    calc Real.exp (-(1/12 : ℝ)) ^ 4 ≤ (12/13) ^ 4 :=
      pow_le_pow_left₀ (le_trans h0 h1) h2 4
    _ = (20736/28561 : ℝ) := by norm_num
  nlinarith [mul_pos_of_neg_of_neg
    (show Real.exp (-(1/12 : ℝ)) ^ 4 - 73/100 < 0 by linarith)
    (show Real.exp (-(1/12 : ℝ)) ^ 4 - 83/100 < 0 by linarith)]

lemma cex_G_u6_gt :
    (-98/5 : ℝ) <
      100 * (Real.exp (-(1/12 : ℝ)) ^ 6) ^ 2 - 156 * Real.exp (-(1/12 : ℝ)) ^ 6 + 41 := by
  obtain ⟨h1, h2⟩ := u_bounds
  have h0 : (0:ℝ) ≤ 11/12 := by norm_num
  have hh : Real.exp (-(1/12 : ℝ)) ^ 6 ≤ (2985984/4826809 : ℝ) := by
    calc Real.exp (-(1/12 : ℝ)) ^ 6 ≤ (12/13) ^ 6 :=
      pow_le_pow_left₀ (le_trans h0 h1) h2 6
    _ = (2985984/4826809 : ℝ) := by norm_num
  nlinarith [mul_pos_of_neg_of_neg
    (show Real.exp (-(1/12 : ℝ)) ^ 6 - 73/100 < 0 by linarith)
    (show Real.exp (-(1/12 : ℝ)) ^ 6 - 83/100 < 0 by linarith)]

lemma cex_G_u9_gt :
    (-98/5 : ℝ) <
      100 * (Real.exp (-(1/12 : ℝ)) ^ 9) ^ 2 - 156 * Real.exp (-(1/12 : ℝ)) ^ 9 + 41 := by
  obtain ⟨h1, h2⟩ := u_bounds
  have h0 : (0:ℝ) ≤ 11/12 := by norm_num
  have hh : Real.exp (-(1/12 : ℝ)) ^ 9 ≤ (12/13 : ℝ) ^ 9 :=
    pow_le_pow_left₀ (le_trans h0 h1) h2 9
  have hh2 : ((12:ℝ)/13) ^ 9 ≤ 49/100 := by norm_num
  nlinarith [mul_pos_of_neg_of_neg
    (show Real.exp (-(1/12 : ℝ)) ^ 9 - 73/100 < 0 by linarith)
    (show Real.exp (-(1/12 : ℝ)) ^ 9 - 83/100 < 0 by linarith)]

/-- C2, counterexample: with the radial profiles `tcx`/`scx`, interval
`[0, 3]`, `min_scale = 1` and the even step count 4, the depth-0 fit
returns decay 1 (the grid minimum), but the depth-1 refinement rescans
`[0, 2]` on a grid `{0, 2/3, 4/3, 2}` that misses decay 1, and every one
of those candidates has a strictly larger residual. -/
theorem findBKRec1D_refine_can_increase :
    residual1D 2 tcx scx (findBKRec1D 2 tcx scx 1 4 0 0 3).1
        (findBKRec1D 2 tcx scx 1 4 0 0 3).2 <
      residual1D 2 tcx scx (findBKRec1D 2 tcx scx 1 4 1 0 3).1
        (findBKRec1D 2 tcx scx 1 4 1 0 3).2 := by
  -- candidate decay values of the outer scan over [0, 3]
  have hc0 : candB 0 3 4 0 = 0 := by rw [candB_as_mul]; norm_num
  have hc1 : candB 0 3 4 1 = 1 := by rw [candB_as_mul]; norm_num
  have hc2 : candB 0 3 4 2 = 2 := by rw [candB_as_mul]; norm_num
  have hc3 : candB 0 3 4 3 = 3 := by rw [candB_as_mul]; norm_num
  -- residuals at the outer candidates, in powers of u = exp(-1/12)
  have e0 : residAt 2 tcx scx 1 0 =
      100 * (1:ℝ) ^ 2 - 156 * 1 + 41 := by
    rw [residAt_cx, show (-(0/4 : ℝ)) = 0 by norm_num, Real.exp_zero]
  have e1 : residAt 2 tcx scx 1 1 =
      100 * (Real.exp (-(1/12 : ℝ)) ^ 3) ^ 2 - 156 * Real.exp (-(1/12 : ℝ)) ^ 3 + 41 := by
    rw [residAt_cx, exp_div12_pow 3 (-(1/4 : ℝ)) (by norm_num)]
  have e2 : residAt 2 tcx scx 1 2 =
      100 * (Real.exp (-(1/12 : ℝ)) ^ 6) ^ 2 - 156 * Real.exp (-(1/12 : ℝ)) ^ 6 + 41 := by
    rw [residAt_cx, exp_div12_pow 6 (-(2/4 : ℝ)) (by norm_num)]
  have e3 : residAt 2 tcx scx 1 3 =
      100 * (Real.exp (-(1/12 : ℝ)) ^ 9) ^ 2 - 156 * Real.exp (-(1/12 : ℝ)) ^ 9 + 41 := by
    rw [residAt_cx, exp_div12_pow 9 (-(3/4 : ℝ)) (by norm_num)]
  -- comparisons driving the outer fold
  have hlt10 : residAt 2 tcx scx 1 1 < residAt 2 tcx scx 1 0 := by
    rw [e0, e1]
    have := cex_G_u3_lt
    linarith
  have hnl2 : ¬ residAt 2 tcx scx 1 2 < residAt 2 tcx scx 1 1 := by
    rw [e1, e2]
    have ha := cex_G_u3_lt
    have hb := cex_G_u6_gt
    exact not_lt.mpr (by linarith)
  have hnl3 : ¬ residAt 2 tcx scx 1 3 < residAt 2 tcx scx 1 1 := by
    rw [e1, e3]
    have ha := cex_G_u3_lt
    have hb := cex_G_u9_gt
    exact not_lt.mpr (by linarith)
  -- the outer scan selects decay 1 with scale 1
  have step0 : scanStep 2 tcx scx 0 3 1 4 (none, (0:ℝ), (1.0:ℝ)) 0 =
      (some (residAt 2 tcx scx 1 0), 0, 1) := by
    rw [scanStep_none, hc0, scaleFor_cx]
  have step1 : scanStep 2 tcx scx 0 3 1 4 (some (residAt 2 tcx scx 1 0), 0, 1) 1 =
      (some (residAt 2 tcx scx 1 1), 1, 1) := by
    rw [scanStep_some, hc1, scaleFor_cx, if_pos hlt10]
  have step2 : scanStep 2 tcx scx 0 3 1 4 (some (residAt 2 tcx scx 1 1), 1, 1) 2 =
      (some (residAt 2 tcx scx 1 1), 1, 1) := by
    rw [scanStep_some, hc2, scaleFor_cx, if_neg hnl2]
  have step3 : scanStep 2 tcx scx 0 3 1 4 (some (residAt 2 tcx scx 1 1), 1, 1) 3 =
      (some (residAt 2 tcx scx 1 1), 1, 1) := by
    rw [scanStep_some, hc3, scaleFor_cx, if_neg hnl3]
  have hscan : scanBK 2 tcx scx 0 3 1 4 = (some (residAt 2 tcx scx 1 1), 1, 1) := by
    unfold scanBK
    rw [show List.range 4 = [0, 1, 2, 3] from rfl]
    rw [List.foldl_cons, step0, List.foldl_cons, step1, List.foldl_cons, step2,
      List.foldl_cons, step3, List.foldl_nil]
  -- depth 0 returns (1, 1)
  have hrun0 : findBKRec1D 2 tcx scx 1 4 0 0 3 = (1, 1) := by
    rw [findBK_zero, hscan]
  -- depth 1 rescans the narrowed interval [0, 2]
  have hrun1 : findBKRec1D 2 tcx scx 1 4 1 0 3 =
      (scanBK 2 tcx scx 0 2 1 4).2 := by
    have hd : findBKRec1D 2 tcx scx 1 4 1 0 3 =
        findBKRec1D 2 tcx scx 1 4 (0 + 1) 0 3 := rfl
    rw [hd, findBK_succ, hscan]
    have h1 : ((some (residAt 2 tcx scx 1 1), (1:ℝ), (1:ℝ)).2.1 : ℝ) = 1 := rfl
    rw [h1]
    have h2 : (1:ℝ) - (3 - 0) / (((4:ℕ) : ℝ) - 1) = 0 := by norm_num
    have h3 : (1:ℝ) + (3 - 0) / (((4:ℕ) : ℝ) - 1) = 2 := by norm_num
    rw [h2, h3, max_self, min_eq_right (show (2:ℝ) ≤ 3 by norm_num)]
    rw [findBK_zero]
  obtain ⟨st2, hst2, heq2⟩ := scan_cand 2 tcx scx 0 2 1 4 (by norm_num)
  rw [hrun0, hrun1, heq2]
  dsimp only
  rw [scaleFor_cx, residual_cx, residual_cx]
  rw [exp_div12_pow 3 (-(1/4 : ℝ)) (by norm_num)]
  have ha := cex_G_u3_lt
  interval_cases st2
  · rw [show candB 0 2 4 0 = 0 by rw [candB_as_mul]; norm_num]
    rw [show (-(0/4 : ℝ)) = 0 by norm_num, Real.exp_zero]
    linarith
  · rw [show candB 0 2 4 1 = 2/3 by rw [candB_as_mul]; norm_num]
    rw [exp_div12_pow 2 (-(2/3/4 : ℝ)) (by norm_num)]
    have hb := cex_G_u2_gt
    linarith
  · rw [show candB 0 2 4 2 = 4/3 by rw [candB_as_mul]; norm_num]
    rw [exp_div12_pow 4 (-(4/3/4 : ℝ)) (by norm_num)]
    have hb := cex_G_u4_gt
    linarith
  · rw [show candB 0 2 4 3 = 2 by rw [candB_as_mul]; norm_num]
    rw [exp_div12_pow 6 (-(2/4 : ℝ)) (by norm_num)]
    have hb := cex_G_u6_gt
    linarith
